import Mathlib

/-!
# serve: a static file server (main.go)

A shallow embedding of `main.go`: the command line validation of `parseArgs`,
the header decorating middleware of `getHandler`, and the handler chain and
transport selection of `main`, together with the properties of the design
document that concern them.

Go strings are lists of characters. The Go map `Options.headers` is the list of
its entries; a `range` over it visits the entries in an unspecified order, which
the model takes as an explicit enumeration `order` (a permutation of the
entries). The mutable state behind an `http.ResponseWriter` is passed explicitly.
-/

namespace Serve

/-- A Go string, as the list of its characters. -/
abbrev Str := List Char

/-! ## Library functions called by the program -/

/-- Go `strings.Index(s, sep)` for a one-character separator: the position of the
first occurrence of `sep` in `s`, `none` where Go returns `-1`. -/
def stringsIndex (s : Str) (sep : Char) : Option Nat :=
  match s with
  | [] => none
  | c :: cs => if c = sep then some 0 else (stringsIndex cs sep).map (· + 1)

/-- Go `strings.Cut(s, sep)`: `before, after, found`. Cuts `s` around the first
occurrence of `sep`; when `sep` does not occur the result is `s, "", false`. -/
def stringsCut (s : Str) (sep : Char) : Str × Str × Bool :=
  match stringsIndex s sep with
  | some i => (s.take i, s.drop (i + 1), true)
  | none => (s, [], false)

/-- Go `strings.Split(s, sep)` for a one-character separator: the substrings of
`s` between the occurrences of `sep`; a string without `sep` (the empty string
included) gives the one-element slice `[s]`. -/
def stringsSplit (s : Str) (sep : Char) : List Str :=
  match s with
  | [] => [[]]
  | c :: cs =>
    if c = sep then [] :: stringsSplit cs sep
    else
      match stringsSplit cs sep with
      | [] => [[c]]
      | x :: xs => (c :: x) :: xs

/-- The token characters of a header field name (`validHeaderFieldByte` of
`net/textproto`): letters, digits and the RFC 7230 punctuation. -/
def validHeaderFieldByte (c : Char) : Bool :=
  c.isAlphanum || "!#$%&*+-.^_|~".toList.contains c || c == Char.ofNat 39 || c == Char.ofNat 96

/-- The case rewriting loop of `net/textproto`: upper case for the first letter
and for a letter after a dash, lower case elsewhere. -/
def canonicalCase (upper : Bool) (s : Str) : Str :=
  match s with
  | [] => []
  | c :: cs =>
    let c1 := if upper && c.isLower then c.toUpper
      else if !upper && c.isUpper then c.toLower else c
    c1 :: canonicalCase (c1 == '-') cs

/-- Go `textproto.CanonicalMIMEHeaderKey`: a key holding a character that is not
a token character is returned unchanged, any other key in canonical case. -/
def canonicalMIMEHeaderKey (s : Str) : Str :=
  if s.all validHeaderFieldByte then canonicalCase true s else s

/-! ## Data model -/

/-- A Go `map[string]string`, as the list of its entries (keys distinct in every
map built by `mapSet`). -/
abbrev StrMap := List (Str × Str)

/-- The assignment `m[k] = v`: replaces the entry of `k` if there is one, adds an
entry otherwise. -/
def mapSet (m : StrMap) (k v : Str) : StrMap :=
  match m with
  | [] => [(k, v)]
  | (k1, v1) :: rest => if k1 = k then (k, v) :: rest else (k1, v1) :: mapSet rest k v

/-- The lookup `m[k]`. -/
def mapGet (m : StrMap) (k : Str) : Option Str :=
  match m with
  | [] => none
  | (k1, v1) :: rest => if k1 = k then some v1 else mapGet rest k

/-- Options set for the program. -/
structure Options where
  addr : Str
  dir : Str
  certFile : Str
  keyFile : Str
  useHTTPS : Bool
  useCORS : Bool
  headers : StrMap
deriving DecidableEq, Repr

/-- What `flag.Parse` leaves behind: the variables the flags are bound to (`dir`
already holding the working directory when `-d` is absent) and the positional
arguments `flag.Args()`. -/
structure Flags where
  useHTTPS : Bool
  useCORS : Bool
  certFile : Str
  keyFile : Str
  headers : Str
  dir : Str
  args : List Str
deriving DecidableEq, Repr

/-- The end of the process through `usage`: the lines logged before, the usage
text on the flag output, and the exit code. -/
structure Exit where
  logged : List Str
  usageShown : Bool
  code : Nat
deriving DecidableEq, Repr

/-- A computation that either returns or ends the process. -/
inductive Result (α : Type) where
  | ok (a : α)
  | exit (e : Exit)
deriving DecidableEq, Repr

/-! ## parseArgs -/

/-- The function `usage`: prints the usage text and calls `os.Exit(1)`. -/
def usage (logged : List Str) : Exit :=
  { logged := logged, usageShown := true, code := 1 }

/-- The loop of `parseArgs` over the comma separated values: each is cut at its
first colon and stored; a value without a colon ends the process. -/
def parseHeaders (vals : List Str) (m : StrMap) : Result StrMap :=
  match vals with
  | [] => .ok m
  | val :: rest =>
    match stringsCut val ':' with
    | (k, v, found) =>
      if !found then .exit (usage ["Invalid headers string was provided.".toList])
      else parseHeaders rest (mapSet m k v)

/-- The function `parseArgs`, after `flag.Parse`. -/
def parseArgs (f : Flags) : Result Options :=
  -- addr not been provided
  if f.args.length < 1 then .exit (usage ["ADDR has not been provided.".toList])
  -- if HTTPS flag set then make sure HTTPS options have also been provided
  else if f.useHTTPS && (f.certFile.length == 0 || f.keyFile.length == 0) then
    .exit (usage ["Missing cert or key when using secure flag.".toList])
  else
    -- parse headers into string map
    match (if f.headers.length > 0 then parseHeaders (stringsSplit f.headers ',') []
           else .ok []) with
    | .exit e => .exit e
    | .ok hs =>
      .ok { addr := f.args.headD [], dir := f.dir, certFile := f.certFile,
            keyFile := f.keyFile, useHTTPS := f.useHTTPS, useCORS := f.useCORS,
            headers := hs }

/-! ## The response and the middleware -/

/-- A Go `http.Header`: canonical header name to the values stored under it. -/
abbrev Header := Str → Option (List Str)

/-- The empty header map. -/
def Header.empty : Header := fun _ => none

/-- Go `Header.Values(key)`: the values under the canonical form of `key`. -/
def Header.Values (h : Header) (key : Str) : List Str :=
  (h (canonicalMIMEHeaderKey key)).getD []

/-- Go `Header.Add(key, value)`: `h[k] = append(h[k], value)` for the canonical
form `k` of `key`. -/
def Header.Add (h : Header) (key value : Str) : Header :=
  fun x => if x = canonicalMIMEHeaderKey key
    then some ((h (canonicalMIMEHeaderKey key)).getD [] ++ [value]) else h x

/-- The part of an `http.Request` the program looks at. -/
structure Request where
  method : Str
  path : Str
deriving DecidableEq, Repr

/-- The effects on a connection that the handler chain performs. -/
inductive Event where
  | headerAdd (key value : Str)
  | logStart
  | logEntry (status : Nat) (method path : Str)
  | respond (path : Str)
deriving DecidableEq, Repr

/-- The state behind an `http.ResponseWriter`: the header map, the status code
(0 until one is written), the body written so far, and the effects performed on
the connection so far, oldest first. -/
structure ResponseWriter where
  header : Header
  status : Nat
  body : Str
  trace : List Event

/-- An `http.HandlerFunc`. -/
abbrev Handler := ResponseWriter → Request → ResponseWriter

/-- A negroni handler: `func(w, req, next)`. -/
abbrev Middleware := ResponseWriter → Request → Handler → ResponseWriter

/-- The call `w.Header().Add(key, val)`. -/
def ResponseWriter.headerAdd (w : ResponseWriter) (key val : Str) : ResponseWriter :=
  { w with header := w.header.Add key val, trace := w.trace ++ [Event.headerAdd key val] }

/-- The header name of the CORS allow header. -/
def corsHeader : Str := "Access-Control-Allow-Origin".toList

/-- The function `getHandler`. `order` is the order in which the `range` over
`opts.headers` visits the entries. The deferred call `next(w, req)` runs when
the body has finished. -/
def getHandler (opts : Options) (order : StrMap) : Middleware :=
  fun w req next =>
    -- Add CORS allow header
    let w1 := if opts.useCORS then w.headerAdd corsHeader "*".toList else w
    -- Add extra headers to the response
    let w2 := order.foldl (fun acc kv => acc.headerAdd kv.1 kv.2) w1
    next w2 req

/-! ## The handler chain of negroni and main -/

/-- The `voidMiddleware` of negroni, the end of every chain. -/
def voidMiddleware : Middleware := fun w _ _ => w

/-- The `build` of negroni: the first handler added runs first, its `next` is
the chain of the handlers added after it. -/
def build (handlers : List Middleware) : Handler :=
  match handlers with
  | [] => fun w req => voidMiddleware w req (fun w1 _ => w1)
  | h :: rest => fun w req => h w req (build rest)

/-- The `Wrap` of negroni, used by `UseHandler`: the handler, then `next`. -/
def wrap (handler : Handler) : Middleware :=
  fun w req next => next (handler w req) req

/-- The `Logger` of negroni: takes the start time, calls `next`, then logs one
entry with the status, the method and the path. -/
def newLogger : Middleware :=
  fun w req next =>
    let w1 := { w with trace := w.trace ++ [Event.logStart] }
    let w2 := next w1 req
    { w2 with trace := w2.trace ++ [Event.logEntry w2.status req.method req.path] }

/-- The handler `n` that `main` composes: `UseFunc(getHandler(opts))`, then
`Use(negroni.NewLogger())`, then `UseHandler(r)`, where `r` is the router with
the file server of `opts.dir` mounted on the path `/`. -/
def mainHandler (opts : Options) (r : Handler) (order : StrMap) : Handler :=
  build [getHandler opts order, newLogger, wrap r]

/-- The transport that `main` starts. -/
inductive Transport where
  | listenAndServe (addr : Str)
  | listenAndServeTLS (addr certFile keyFile : Str)
deriving DecidableEq, Repr

/-- The outcome of `main` up to the blocking call: the lines logged and the
transport started. -/
structure Started where
  logged : List Str
  transport : Transport
deriving DecidableEq, Repr

/-- The function `main`, up to the call that binds the socket. -/
def main (f : Flags) : Result Started :=
  match parseArgs f with
  | .exit e => .exit e
  | .ok opts =>
    let l1 := "Serving files from: ".toList ++ opts.dir
    if opts.useHTTPS then
      .ok { logged := [l1, "HTTPS: ".toList ++ opts.addr],
            transport := .listenAndServeTLS opts.addr opts.certFile opts.keyFile }
    else
      .ok { logged := [l1, "HTTP: ".toList ++ opts.addr],
            transport := .listenAndServe opts.addr }

/-! ## Specification side definitions -/

/-- The header additions the decorator performs, in program order: the CORS
header when `useCORS` is set, then the entries of `opts.headers` in the order
the `range` visits them. -/
def additions (opts : Options) (order : StrMap) : StrMap :=
  (if opts.useCORS then [(corsHeader, "*".toList)] else []) ++ order

/-- The values among `adds` whose name has the canonical form `k`, in order. -/
def addedUnder (adds : StrMap) (k : Str) : List Str :=
  (adds.filter (fun kv => canonicalMIMEHeaderKey kv.1 = k)).map (fun kv => kv.2)

/-- The events of the header additions `adds`. -/
def addEvents (adds : StrMap) : List Event :=
  adds.map (fun kv => Event.headerAdd kv.1 kv.2)

/-- The text of a `--headers` entry before its first colon. -/
def nameOf (e : Str) : Str := e.takeWhile (fun c => c != ':')

/-- The text of a `--headers` entry after its first colon. -/
def valueOf (e : Str) : Str := (e.dropWhile (fun c => c != ':')).drop 1

/-- White space in the sense of Go `unicode.IsSpace`, Latin-1 range. -/
def isSpace (c : Char) : Bool :=
  c == ' ' || c == '\t' || c == '\n' || c == '\r' || c == Char.ofNat 11 || c == Char.ofNat 12
    || c == Char.ofNat 133 || c == Char.ofNat 160

/-- A string that neither begins nor ends with white space. -/
def isTrimmed (s : Str) : Bool :=
  !(s.head?.any isSpace) && !(s.getLast?.any isSpace)

/-- The Options that `parseArgs` returns for the flags `f` with the header map
`hs`: every flag value as it is, `addr` the first positional argument. -/
def optionsOf (f : Flags) (hs : StrMap) : Options :=
  { addr := f.args.headD [], dir := f.dir, certFile := f.certFile, keyFile := f.keyFile,
    useHTTPS := f.useHTTPS, useCORS := f.useCORS, headers := hs }

/-- The secure flag is set and the cert path or the key path is empty. -/
def missingTLS (f : Flags) : Prop :=
  f.useHTTPS = true ∧ (f.certFile = [] ∨ f.keyFile = [])

/-- Some comma separated entry of a non-empty `--headers` string has no colon. -/
def badHeaders (f : Flags) : Prop :=
  f.headers ≠ [] ∧ ∃ e ∈ stringsSplit f.headers ',', ':' ∉ e

/-! ## Concrete inputs -/

/-- The request `GET /hello.txt`. -/
def exampleRequest : Request := { method := "GET".toList, path := "/hello.txt".toList }

/-- A fresh response: no header, no status, no body. -/
def emptyWriter : ResponseWriter := { header := Header.empty, status := 0, body := [], trace := [] }

/-- The options of `--cors --headers "X-Foo: bar,X-Baz: qux" -d ./pub :8080`. -/
def exampleOptions : Options :=
  { addr := ":8080".toList, dir := "./pub".toList, certFile := [], keyFile := [],
    useHTTPS := false, useCORS := true,
    headers := [("X-Foo".toList, " bar".toList), ("X-Baz".toList, " qux".toList)] }

/-- Options with two header names of the same canonical form. -/
def clashOptions : Options :=
  { addr := ":8080".toList, dir := "./pub".toList, certFile := [], keyFile := [],
    useHTTPS := false, useCORS := false,
    headers := [("x-a".toList, "1".toList), ("X-A".toList, "2".toList)] }

/-- A handler that records its call and writes nothing. -/
def recordingHandler : Handler :=
  fun w req => { w with trace := w.trace ++ [Event.respond req.path] }

/-- A response that already holds the value `old` under `X-Foo`. -/
def presetWriter : ResponseWriter :=
  { header := Header.empty.Add "X-Foo".toList "old".toList, status := 0, body := [], trace := [] }

/-- The flags of `-s 127.0.0.1:4443`, started in `/srv`. -/
def misconfigFlags : Flags :=
  { useHTTPS := true, useCORS := false, certFile := [], keyFile := [], headers := [],
    dir := "/srv".toList, args := ["127.0.0.1:4443".toList] }

/-- The flags of `-s -c cert.pem -k key.pem 127.0.0.1:4443`, started in `/srv`. -/
def tlsFlags : Flags :=
  { useHTTPS := true, useCORS := false, certFile := "cert.pem".toList,
    keyFile := "key.pem".toList, headers := [], dir := "/srv".toList,
    args := ["127.0.0.1:4443".toList] }

/-- The flags of `--headers "X-Foo: bar,X-Baz: qux" :8080`, started in `/srv`. -/
def headerFlags : Flags :=
  { useHTTPS := false, useCORS := false, certFile := [], keyFile := [],
    headers := "X-Foo: bar,X-Baz: qux".toList, dir := "/srv".toList,
    args := [":8080".toList] }

/-- The flags of `--headers "a:1,b:2" :8080`, started in `/srv`. -/
def abFlags : Flags :=
  { useHTTPS := false, useCORS := false, certFile := [], keyFile := [],
    headers := "a:1,b:2".toList, dir := "/srv".toList, args := [":8080".toList] }

/-- The flags of `--headers "bad" :8080`, started in `/srv`. -/
def badFlags : Flags :=
  { useHTTPS := false, useCORS := false, certFile := [], keyFile := [],
    headers := "bad".toList, dir := "/srv".toList, args := [":8080".toList] }

/-- The flags of `-d /srv` with no address. -/
def noAddrFlags : Flags :=
  { useHTTPS := false, useCORS := false, certFile := [], keyFile := [],
    headers := [], dir := "/srv".toList, args := [] }

/-- A router that serves every path with status 200 and the body `Hi`. -/
def exampleRouter : Handler :=
  fun w req => { w with status := 200, body := w.body ++ "Hi\n".toList,
                        trace := w.trace ++ [Event.respond req.path] }

/-- The chain with the logger first and the decorator inside it. -/
def loggerFirstHandler (opts : Options) (r : Handler) (order : StrMap) : Handler :=
  build [newLogger, getHandler opts order, wrap r]

/-! ## The decorator: auxiliary lemmas -/

theorem foldl_headerAdd_header (l : StrMap) (w : ResponseWriter) :
    (l.foldl (fun acc kv => acc.headerAdd kv.1 kv.2) w).header
      = l.foldl (fun acc kv => acc.Add kv.1 kv.2) w.header := by
  induction l generalizing w with
  | nil => rfl
  | cons a t ih => simp only [List.foldl_cons]; rw [ih]; rfl

theorem foldl_headerAdd_status (l : StrMap) (w : ResponseWriter) :
    (l.foldl (fun acc kv => acc.headerAdd kv.1 kv.2) w).status = w.status := by
  induction l generalizing w with
  | nil => rfl
  | cons a t ih => simp only [List.foldl_cons]; rw [ih]; rfl

theorem foldl_headerAdd_body (l : StrMap) (w : ResponseWriter) :
    (l.foldl (fun acc kv => acc.headerAdd kv.1 kv.2) w).body = w.body := by
  induction l generalizing w with
  | nil => rfl
  | cons a t ih => simp only [List.foldl_cons]; rw [ih]; rfl

theorem foldl_headerAdd_trace (l : StrMap) (w : ResponseWriter) :
    (l.foldl (fun acc kv => acc.headerAdd kv.1 kv.2) w).trace = w.trace ++ addEvents l := by
  induction l generalizing w with
  | nil => simp [addEvents]
  | cons a t ih =>
    simp only [List.foldl_cons]; rw [ih]
    simp [addEvents, ResponseWriter.headerAdd]

/-- The decorator hands to `next` the writer with all additions applied. -/
theorem getHandler_eq (opts : Options) (order : StrMap) (w : ResponseWriter) (req : Request)
    (next : Handler) :
    getHandler opts order w req next
      = next ((additions opts order).foldl (fun acc kv => acc.headerAdd kv.1 kv.2) w) req := by
  unfold getHandler additions
  cases opts.useCORS <;> simp [List.foldl_append]

/-- The map after a sequence of `Add` calls, key by key. -/
theorem foldl_Add_apply (l : StrMap) (h : Header) (k : Str) :
    (l.foldl (fun acc kv => acc.Add kv.1 kv.2) h) k
      = if addedUnder l k = [] then h k else some ((h k).getD [] ++ addedUnder l k) := by
  induction l generalizing h with
  | nil => simp [addedUnder]
  | cons a t ih =>
    simp only [List.foldl_cons]
    rw [ih]
    by_cases hk : canonicalMIMEHeaderKey a.1 = k
    · subst hk
      have e : addedUnder (a :: t) (canonicalMIMEHeaderKey a.1)
          = a.2 :: addedUnder t (canonicalMIMEHeaderKey a.1) := by
        simp [addedUnder]
      rw [e]
      by_cases ht : addedUnder t (canonicalMIMEHeaderKey a.1) = []
      · simp [ht, Header.Add]
      · simp [ht, Header.Add]
    · have e : addedUnder (a :: t) k = addedUnder t k := by
        simp [addedUnder, hk]
      have e2 : (h.Add a.1 a.2) k = h k := by
        have : ¬ k = canonicalMIMEHeaderKey a.1 := fun h => hk h.symm
        simp [Header.Add, this]
      rw [e, e2]

theorem foldl_Add_getD (l : StrMap) (h : Header) (k : Str) :
    ((l.foldl (fun acc kv => acc.Add kv.1 kv.2) h) k).getD [] = (h k).getD [] ++ addedUnder l k := by
  rw [foldl_Add_apply]
  by_cases ht : addedUnder l k = []
  · simp [ht]
  · simp [ht]

theorem mem_addedUnder (l : StrMap) (k v : Str) :
    v ∈ addedUnder l k ↔ ∃ n, (n, v) ∈ l ∧ canonicalMIMEHeaderKey n = k := by
  simp only [addedUnder, List.mem_map, List.mem_filter, decide_eq_true_eq]
  constructor
  · rintro ⟨⟨n, v1⟩, ⟨hm, hc⟩, rfl⟩
    exact ⟨n, hm, hc⟩
  · rintro ⟨n, hm, hc⟩
    exact ⟨(n, v), ⟨hm, hc⟩, rfl⟩

theorem canonical_corsHeader : canonicalMIMEHeaderKey corsHeader = corsHeader := by decide

theorem addedUnder_append (a b : StrMap) (k : Str) :
    addedUnder (a ++ b) k = addedUnder a k ++ addedUnder b k := by
  simp [addedUnder]

theorem length_le_one_of_nodup_const {α : Type} (l : List α) (k : α) (hn : l.Nodup)
    (hk : ∀ x ∈ l, x = k) : l.length ≤ 1 := by
  match l, hn, hk with
  | [], _, _ => simp
  | [_], _, _ => simp
  | a :: b :: t, hn, hk =>
    exfalso
    have ha : a = k := hk a (by simp)
    have hb : b = k := hk b (by simp)
    rw [List.nodup_cons] at hn
    exact hn.1 (by simp [ha, hb])

theorem eq_of_perm_of_length_le_one {α : Type} (l1 l2 : List α) (hp : l1.Perm l2)
    (hl : l1.length ≤ 1) : l1 = l2 := by
  match l1, hl with
  | [], _ => exact (List.nil_perm.mp hp).symm
  | [a], _ => exact (List.singleton_perm.mp hp)
  | _ :: _ :: _, hl => simp at hl

/-- Two enumerations of the same entries with pairwise distinct canonical names
add the same values under every name. -/
theorem addedUnder_perm (o1 o2 : StrMap) (hp : o1.Perm o2)
    (hd : (o1.map (fun kv => canonicalMIMEHeaderKey kv.1)).Nodup) (k : Str) :
    addedUnder o1 k = addedUnder o2 k := by
  unfold addedUnder
  have hp1 : (o1.filter (fun kv => canonicalMIMEHeaderKey kv.1 = k)).Perm
      (o2.filter (fun kv => canonicalMIMEHeaderKey kv.1 = k)) := hp.filter _
  have hlen : (o1.filter (fun kv => canonicalMIMEHeaderKey kv.1 = k)).length ≤ 1 := by
    have hsub : ((o1.filter (fun kv => canonicalMIMEHeaderKey kv.1 = k)).map
        (fun kv => canonicalMIMEHeaderKey kv.1)).Sublist
        (o1.map (fun kv => canonicalMIMEHeaderKey kv.1)) :=
      (List.filter_sublist o1).map _
    have hn := hd.sublist hsub
    have := length_le_one_of_nodup_const _ k hn (by
      intro x hx
      simp only [List.mem_map, List.mem_filter, decide_eq_true_eq] at hx
      obtain ⟨kv, ⟨_, hc⟩, rfl⟩ := hx
      exact hc)
    simpa using this
  rw [eq_of_perm_of_length_le_one _ _ hp1 hlen]

/-! ## The decorator: claims -/

/-- C1: for every Options value and every request, the response writer that the
middleware of getHandler hands to the next handler holds every configured
header: the value `*` under Access-Control-Allow-Origin when useCORS is set, and
for every entry (n, v) of opts.headers the value v under the canonical form of
the name n. -/
theorem getHandler_sets_configured_headers (opts : Options) (order : StrMap)
    (horder : order.Perm opts.headers) (w : ResponseWriter) (req : Request) :
    ∃ w1 : ResponseWriter,
      (∀ next : Handler, getHandler opts order w req next = next w1 req) ∧
      (opts.useCORS = true → "*".toList ∈ w1.header.Values corsHeader) ∧
      (∀ n v, (n, v) ∈ opts.headers → v ∈ w1.header.Values n) := by
  refine ⟨_, fun next => getHandler_eq opts order w req next, ?_, ?_⟩
  · intro hc
    simp only [Header.Values, foldl_headerAdd_header, foldl_Add_getD]
    apply List.mem_append_right
    rw [mem_addedUnder]
    exact ⟨corsHeader, by simp [additions, hc], rfl⟩
  · intro n v hm
    simp only [Header.Values, foldl_headerAdd_header, foldl_Add_getD]
    apply List.mem_append_right
    rw [mem_addedUnder]
    refine ⟨n, ?_, rfl⟩
    simp only [additions, List.mem_append]
    exact Or.inr (horder.mem_iff.mpr hm)

/-- C1 at the options of `--cors --headers "X-Foo: bar,X-Baz: qux"`, the entries
visited in the reverse order. -/
theorem getHandler_sets_configured_headers_witness :
    List.Perm [("X-Baz".toList, " qux".toList), ("X-Foo".toList, " bar".toList)]
        exampleOptions.headers ∧
      ∃ w1 : ResponseWriter,
        (∀ next : Handler, getHandler exampleOptions
          [("X-Baz".toList, " qux".toList), ("X-Foo".toList, " bar".toList)]
          emptyWriter exampleRequest next = next w1 exampleRequest) ∧
        "*".toList ∈ w1.header.Values corsHeader ∧
        " bar".toList ∈ w1.header.Values "x-foo".toList ∧
        " qux".toList ∈ w1.header.Values "X-Baz".toList := by
  have hp : List.Perm [("X-Baz".toList, " qux".toList), ("X-Foo".toList, " bar".toList)]
      exampleOptions.headers := List.Perm.swap _ _ _
  obtain ⟨w1, h1, h2, h3⟩ :=
    getHandler_sets_configured_headers exampleOptions _ hp emptyWriter exampleRequest
  refine ⟨hp, w1, h1, h2 rfl, ?_, h3 _ _ (by decide)⟩
  have h := h3 "X-Foo".toList " bar".toList (by decide)
  have e : canonicalMIMEHeaderKey "x-foo".toList = canonicalMIMEHeaderKey "X-Foo".toList := by
    decide
  simpa only [Header.Values, e] using h

/-- C6: the decorator appends. Under every header name k the values present
before the decorator runs are still there afterwards, in their order, followed
by the values configured for k (the value `*` for Access-Control-Allow-Origin
when useCORS is set, and the value of every entry of opts.headers whose name has
the canonical form k); a name that is neither of these is left as it was. -/
theorem getHandler_append_semantics (opts : Options) (order : StrMap)
    (horder : order.Perm opts.headers) (w : ResponseWriter) (req : Request) :
    ∃ w1 : ResponseWriter,
      (∀ next : Handler, getHandler opts order w req next = next w1 req) ∧
      (∀ k, (w1.header k).getD [] = (w.header k).getD [] ++ addedUnder (additions opts order) k) ∧
      (∀ k v, v ∈ addedUnder (additions opts order) k ↔
        ((opts.useCORS = true ∧ k = corsHeader ∧ v = "*".toList) ∨
          ∃ n, (n, v) ∈ opts.headers ∧ canonicalMIMEHeaderKey n = k)) ∧
      (∀ k, ¬ (opts.useCORS = true ∧ k = corsHeader) →
        (∀ n v, (n, v) ∈ opts.headers → canonicalMIMEHeaderKey n ≠ k) →
        w1.header k = w.header k) := by
  have hmem : ∀ k v, v ∈ addedUnder (additions opts order) k ↔
      ((opts.useCORS = true ∧ k = corsHeader ∧ v = "*".toList) ∨
        ∃ n, (n, v) ∈ opts.headers ∧ canonicalMIMEHeaderKey n = k) := by
    intro k v
    rw [additions, addedUnder_append, List.mem_append, mem_addedUnder, mem_addedUnder]
    constructor
    · rintro (⟨n, hm, hk⟩ | ⟨n, hm, hk⟩)
      · left
        cases hc : opts.useCORS
        · simp [hc] at hm
        · simp only [hc, if_true, List.mem_singleton, Prod.mk.injEq] at hm
          obtain ⟨rfl, rfl⟩ := hm
          exact ⟨rfl, by rw [← hk, canonical_corsHeader], rfl⟩
      · exact Or.inr ⟨n, horder.mem_iff.mp hm, hk⟩
    · rintro (⟨hc, rfl, rfl⟩ | ⟨n, hm, hk⟩)
      · exact Or.inl ⟨corsHeader, by simp [hc], canonical_corsHeader⟩
      · exact Or.inr ⟨n, horder.mem_iff.mpr hm, hk⟩
  refine ⟨_, fun next => getHandler_eq opts order w req next, ?_, hmem, ?_⟩
  · intro k
    rw [foldl_headerAdd_header, foldl_Add_getD]
  · intro k hcors hnames
    rw [foldl_headerAdd_header, foldl_Add_apply]
    have hnil : addedUnder (additions opts order) k = [] := by
      apply List.eq_nil_iff_forall_not_mem.mpr
      intro v hv
      rcases (hmem k v).mp hv with ⟨hc, hk, _⟩ | ⟨n, hm, hk⟩
      · exact hcors ⟨hc, hk⟩
      · exact hnames n v hm hk
    simp [hnil]

/-- C6 at a response that already holds `old` under X-Foo: afterwards X-Foo
holds `old` and then the configured value, and the name X-Other is untouched. -/
theorem getHandler_append_semantics_witness :
    List.Perm exampleOptions.headers exampleOptions.headers ∧
      ∃ w1 : ResponseWriter,
        (∀ next : Handler, getHandler exampleOptions exampleOptions.headers
          presetWriter exampleRequest next = next w1 exampleRequest) ∧
        (w1.header "X-Foo".toList).getD [] = ["old".toList, " bar".toList] ∧
        w1.header "X-Other".toList = presetWriter.header "X-Other".toList := by
  obtain ⟨w1, h1, h2, _, h4⟩ :=
    getHandler_append_semantics exampleOptions exampleOptions.headers (List.Perm.refl _)
      presetWriter exampleRequest
  refine ⟨List.Perm.refl _, w1, h1, ?_, ?_⟩
  · rw [h2]; decide
  · apply h4
    · decide
    · intro n v hm
      simp only [exampleOptions, List.mem_cons, Prod.mk.injEq, List.mem_nil_iff, or_false] at hm
      rcases hm with ⟨rfl, _⟩ | ⟨rfl, _⟩ <;> decide

/-- C7: the decorator never aborts the request. Whatever the next handler is,
the outcome is that of one call of it, on the request as received and on the
response writer after all header additions; status and body of that writer are
those received, its header map is the received one with the additions applied,
and with a handler that records its call the trace is the additions followed by
exactly one call. -/
theorem getHandler_calls_next_once (opts : Options) (order : StrMap) (w : ResponseWriter)
    (req : Request) :
    ∃ w1 : ResponseWriter,
      (∀ next : Handler, getHandler opts order w req next = next w1 req) ∧
      w1.status = w.status ∧ w1.body = w.body ∧
      w1.header = (additions opts order).foldl (fun acc kv => acc.Add kv.1 kv.2) w.header ∧
      w1.trace = w.trace ++ addEvents (additions opts order) ∧
      (getHandler opts order w req recordingHandler).trace
        = w.trace ++ addEvents (additions opts order) ++ [Event.respond req.path] := by
  refine ⟨_, fun next => getHandler_eq opts order w req next, ?_, ?_, ?_, ?_, ?_⟩
  · exact foldl_headerAdd_status _ _
  · exact foldl_headerAdd_body _ _
  · exact foldl_headerAdd_header _ _
  · exact foldl_headerAdd_trace _ _
  · rw [getHandler_eq]
    simp only [recordingHandler, foldl_headerAdd_trace]

/-- C10: the header set the decorator produces does not depend on the order in
which opts.headers is visited, when the names are pairwise distinct in canonical
form: two enumerations of the entries give the same header map, value order
included. Without distinctness it can differ: with the names `x-a` and `X-A` the
two values under X-A come in the order of the visit. -/
theorem getHandler_order_independent (opts : Options) (o1 o2 : StrMap)
    (h1 : o1.Perm opts.headers) (h2 : o2.Perm opts.headers)
    (hd : (opts.headers.map (fun kv => canonicalMIMEHeaderKey kv.1)).Nodup)
    (w : ResponseWriter) (req : Request) :
    (∃ w1 w2 : ResponseWriter,
      (∀ next : Handler, getHandler opts o1 w req next = next w1 req) ∧
      (∀ next : Handler, getHandler opts o2 w req next = next w2 req) ∧
      w1.header = w2.header) ∧
    ((getHandler clashOptions [("x-a".toList, "1".toList), ("X-A".toList, "2".toList)]
        emptyWriter exampleRequest (fun x _ => x)).header.Values "X-A".toList
        = ["1".toList, "2".toList] ∧
     (getHandler clashOptions [("X-A".toList, "2".toList), ("x-a".toList, "1".toList)]
        emptyWriter exampleRequest (fun x _ => x)).header.Values "X-A".toList
        = ["2".toList, "1".toList]) := by
  refine ⟨⟨_, _, fun next => getHandler_eq opts o1 w req next,
    fun next => getHandler_eq opts o2 w req next, ?_⟩, ?_, ?_⟩
  · funext k
    rw [foldl_headerAdd_header, foldl_headerAdd_header, foldl_Add_apply, foldl_Add_apply]
    have hp : o1.Perm o2 := h1.trans h2.symm
    have hd1 : (o1.map (fun kv => canonicalMIMEHeaderKey kv.1)).Nodup :=
      ((h1.map _).nodup_iff).mpr hd
    have e : addedUnder (additions opts o1) k = addedUnder (additions opts o2) k := by
      rw [additions, additions, addedUnder_append, addedUnder_append,
        addedUnder_perm o1 o2 hp hd1 k]
    rw [e]
  · decide
  · decide

/-- C10 at the options of `--cors --headers "X-Foo: bar,X-Baz: qux"`, visited in
the two possible orders. -/
theorem getHandler_order_independent_witness :
    (exampleOptions.headers.map (fun kv => canonicalMIMEHeaderKey kv.1)).Nodup ∧
      ∃ w1 w2 : ResponseWriter,
        (∀ next : Handler, getHandler exampleOptions
          [("X-Foo".toList, " bar".toList), ("X-Baz".toList, " qux".toList)]
          emptyWriter exampleRequest next = next w1 exampleRequest) ∧
        (∀ next : Handler, getHandler exampleOptions
          [("X-Baz".toList, " qux".toList), ("X-Foo".toList, " bar".toList)]
          emptyWriter exampleRequest next = next w2 exampleRequest) ∧
        w1.header = w2.header :=
  ⟨by decide,
    (getHandler_order_independent exampleOptions _ _ (List.Perm.refl _) (List.Perm.swap _ _ _)
      (by decide) emptyWriter exampleRequest).1⟩

/-! ## parseArgs: auxiliary lemmas -/

theorem stringsIndex_of_not_mem (s : Str) (sep : Char) (h : sep ∉ s) :
    stringsIndex s sep = none := by
  induction s with
  | nil => rfl
  | cons c cs ih =>
    have hc : ¬ c = sep := fun e => h (by simp [e])
    have hcs : sep ∉ cs := fun e => h (by simp [e])
    simp [stringsIndex, hc, ih hcs]

theorem stringsIndex_append (n v : Str) (sep : Char) (h : sep ∉ n) :
    stringsIndex (n ++ sep :: v) sep = some n.length := by
  induction n with
  | nil => simp [stringsIndex]
  | cons c cs ih =>
    have hc : ¬ c = sep := fun e => h (by simp [e])
    have hcs : sep ∉ cs := fun e => h (by simp [e])
    simp [stringsIndex, hc, ih hcs]

/-- The loop of Go `genSplit`: cut at the first separator and split the rest. -/
theorem stringsSplit_eq_genSplit (s : Str) (sep : Char) :
    stringsSplit s sep
      = match stringsIndex s sep with
        | none => [s]
        | some i => s.take i :: stringsSplit (s.drop (i + 1)) sep := by
  induction s with
  | nil => rfl
  | cons c cs ih =>
    by_cases hc : c = sep
    · simp [stringsSplit, stringsIndex, hc]
    · cases hi : stringsIndex cs sep with
      | none =>
        rw [hi] at ih
        simp [stringsSplit, stringsIndex, hc, hi, ih]
      | some i =>
        rw [hi] at ih
        simp only [stringsSplit, stringsIndex, hc, hi, if_false, Option.map_some']
        rw [ih]
        simp

theorem stringsSplit_ne_nil (s : Str) (sep : Char) : stringsSplit s sep ≠ [] := by
  cases s with
  | nil => simp [stringsSplit]
  | cons c cs =>
    by_cases hc : c = sep
    · simp [stringsSplit, hc]
    · cases hs : stringsSplit cs sep <;> simp [stringsSplit, hc, hs]

theorem intercalate_cons_cons (sep x y : Str) (ys : List Str) :
    List.intercalate sep (x :: y :: ys) = x ++ sep ++ List.intercalate sep (y :: ys) := by
  simp [List.intercalate, List.intersperse]

/-- The parts of a split hold no separator and give the string back when joined
with the separator. -/
theorem stringsSplit_join (s : Str) (sep : Char) :
    (∀ e ∈ stringsSplit s sep, sep ∉ e) ∧
      List.intercalate [sep] (stringsSplit s sep) = s := by
  induction s with
  | nil => simp [stringsSplit, List.intercalate]
  | cons c cs ih =>
    obtain ⟨ih1, ih2⟩ := ih
    obtain ⟨x, xs, hs⟩ := List.exists_cons_of_ne_nil (stringsSplit_ne_nil cs sep)
    rw [hs] at ih1 ih2
    by_cases hc : c = sep
    · subst hc
      refine ⟨?_, ?_⟩
      · intro e he
        simp only [stringsSplit, hs, if_true, List.mem_cons] at he
        rcases he with rfl | he
        · simp
        · exact ih1 e (by simpa using he)
      · simp only [stringsSplit, hs, if_true]
        rw [intercalate_cons_cons, ih2]
        rfl
    · refine ⟨?_, ?_⟩
      · intro e he
        simp only [stringsSplit, hs, hc, if_false, List.mem_cons] at he
        rcases he with rfl | he
        · simp only [List.mem_cons, not_or]
          exact ⟨fun h => hc h.symm, ih1 x (by simp)⟩
        · exact ih1 e (by simp [he])
      · simp only [stringsSplit, hs, hc, if_false]
        cases xs with
        | nil =>
          simp [List.intercalate] at ih2 ⊢
          exact ih2
        | cons y ys =>
          rw [intercalate_cons_cons] at ih2 ⊢
          rw [← ih2]
          simp

theorem stringsCut_of_not_mem (s : Str) (sep : Char) (h : sep ∉ s) :
    stringsCut s sep = (s, [], false) := by
  simp [stringsCut, stringsIndex_of_not_mem s sep h]

theorem stringsCut_append (n v : Str) (sep : Char) (h : sep ∉ n) :
    stringsCut (n ++ sep :: v) sep = (n, v, true) := by
  simp [stringsCut, stringsIndex_append n v sep h]

/-- An entry with a colon is its name, the colon, its value. -/
theorem entry_eq_name_colon_value (e : Str) (h : ':' ∈ e) :
    e = nameOf e ++ ':' :: valueOf e ∧ ':' ∉ nameOf e := by
  induction e with
  | nil => simp at h
  | cons c cs ih =>
    by_cases hc : c = ':'
    · subst hc
      simp [nameOf, valueOf]
    · have hcs : ':' ∈ cs := by
        rcases List.mem_cons.mp h with e | e
        · exact absurd e.symm hc
        · exact e
      obtain ⟨h1, h2⟩ := ih hcs
      have hne : (c != ':') = true := by simp [hc]
      constructor
      · simp only [nameOf, valueOf, List.takeWhile_cons, List.dropWhile_cons, hne, if_true,
          List.cons_append]
        exact congrArg (List.cons c) h1
      · simp only [nameOf, List.takeWhile_cons, hne, if_true, List.mem_cons, not_or]
        exact ⟨fun e => hc e.symm, h2⟩

/-- The cut of an entry with a colon is its name and its value. -/
theorem stringsCut_entry (e : Str) (h : ':' ∈ e) :
    stringsCut e ':' = (nameOf e, valueOf e, true) := by
  obtain ⟨h1, h2⟩ := entry_eq_name_colon_value e h
  conv_lhs => rw [h1]
  exact stringsCut_append _ _ _ h2

theorem mapSet_of_not_mem (m : StrMap) (k v : Str) (h : k ∉ m.map (fun kv => kv.1)) :
    mapSet m k v = m ++ [(k, v)] := by
  induction m with
  | nil => rfl
  | cons a t ih =>
    obtain ⟨k1, v1⟩ := a
    have h1 : ¬ k1 = k := fun e => h (by simp [e])
    have h2 : k ∉ t.map (fun kv => kv.1) := fun e => h (by simp at e ⊢; exact Or.inr e)
    simp [mapSet, h1, ih h2]

theorem mem_mapSet (m : StrMap) (k v : Str) (x : Str × Str) (h : x ∈ mapSet m k v) :
    x = (k, v) ∨ x ∈ m := by
  induction m with
  | nil => simp [mapSet] at h; exact Or.inl h
  | cons a t ih =>
    obtain ⟨k1, v1⟩ := a
    by_cases h1 : k1 = k
    · simp only [mapSet, h1, if_true, List.mem_cons] at h
      rcases h with h | h
      · exact Or.inl h
      · exact Or.inr (List.mem_cons_of_mem _ h)
    · simp only [mapSet, h1, if_false, List.mem_cons] at h
      rcases h with h | h
      · exact Or.inr (by simp [h])
      · rcases ih h with h | h
        · exact Or.inl h
        · exact Or.inr (List.mem_cons_of_mem _ h)

theorem mapGet_of_mem (m : StrMap) (k v : Str) (hn : (m.map (fun kv => kv.1)).Nodup)
    (h : (k, v) ∈ m) : mapGet m k = some v := by
  induction m with
  | nil => simp at h
  | cons a t ih =>
    obtain ⟨k1, v1⟩ := a
    simp only [List.map_cons, List.nodup_cons] at hn
    rcases List.mem_cons.mp h with e | e
    · simp only [Prod.mk.injEq] at e
      simp [mapGet, e.1, e.2]
    · have h1 : ¬ k1 = k := by
        intro e1
        apply hn.1
        rw [e1]
        exact List.mem_map.mpr ⟨(k, v), e, rfl⟩
      simp [mapGet, h1, ih hn.2 e]

/-- The pairs that the loop of `parseArgs` stores for the values `vals`. -/
theorem parseHeaders_ok (vals : List Str) (m : StrMap) (h : ∀ e ∈ vals, ':' ∈ e) :
    parseHeaders vals m
      = .ok (vals.foldl (fun acc e => mapSet acc (nameOf e) (valueOf e)) m) := by
  induction vals generalizing m with
  | nil => rfl
  | cons e t ih =>
    have he : ':' ∈ e := h e (by simp)
    have ht : ∀ x ∈ t, ':' ∈ x := fun x hx => h x (by simp [hx])
    simp only [parseHeaders, stringsCut_entry e he, List.foldl_cons]
    simpa using ih _ ht

theorem parseHeaders_exit (vals : List Str) (m : StrMap) (h : ∃ e ∈ vals, ':' ∉ e) :
    parseHeaders vals m = .exit (usage ["Invalid headers string was provided.".toList]) := by
  induction vals generalizing m with
  | nil => simp at h
  | cons e t ih =>
    by_cases he : ':' ∈ e
    · have ht : ∃ x ∈ t, ':' ∉ x := by
        obtain ⟨x, hx, hc⟩ := h
        rcases List.mem_cons.mp hx with e1 | e1
        · exact absurd (e1 ▸ he) hc
        · exact ⟨x, e1, hc⟩
      simp only [parseHeaders, stringsCut_entry e he]
      simpa using ih _ ht
    · simp [parseHeaders, stringsCut_of_not_mem e ':' he]

theorem foldl_mapSet_nodup (vals : List Str) (m : StrMap)
    (hn : (m.map (fun kv => kv.1) ++ vals.map nameOf).Nodup) :
    vals.foldl (fun acc e => mapSet acc (nameOf e) (valueOf e)) m
      = m ++ vals.map (fun e => (nameOf e, valueOf e)) := by
  induction vals generalizing m with
  | nil => simp
  | cons e t ih =>
    have h1 : nameOf e ∉ m.map (fun kv => kv.1) := by
      intro hm
      have := List.nodup_append.mp hn
      exact this.2.2 hm (by simp)
    simp only [List.foldl_cons, mapSet_of_not_mem m _ _ h1]
    rw [ih]
    · simp
    · simpa using hn

theorem mem_foldl_mapSet (vals : List Str) (m : StrMap) (x : Str × Str)
    (h : x ∈ vals.foldl (fun acc e => mapSet acc (nameOf e) (valueOf e)) m) :
    x ∈ m ∨ ∃ e ∈ vals, x = (nameOf e, valueOf e) := by
  induction vals generalizing m with
  | nil => exact Or.inl h
  | cons e t ih =>
    simp only [List.foldl_cons] at h
    rcases ih _ h with h1 | ⟨e1, he1, hx⟩
    · rcases mem_mapSet _ _ _ _ h1 with h2 | h2
      · exact Or.inr ⟨e, by simp, h2⟩
      · exact Or.inl h2
    · exact Or.inr ⟨e1, by simp [he1], hx⟩

/-- The five ways through `parseArgs`. -/
theorem parseArgs_cases (f : Flags) :
    (f.args = [] ∧ parseArgs f = .exit (usage ["ADDR has not been provided.".toList])) ∨
    (f.args ≠ [] ∧ missingTLS f ∧
      parseArgs f = .exit (usage ["Missing cert or key when using secure flag.".toList])) ∨
    (f.args ≠ [] ∧ ¬ missingTLS f ∧ badHeaders f ∧
      parseArgs f = .exit (usage ["Invalid headers string was provided.".toList])) ∨
    (f.args ≠ [] ∧ ¬ missingTLS f ∧ f.headers ≠ [] ∧
      (∀ e ∈ stringsSplit f.headers ',', ':' ∈ e) ∧
      parseArgs f = .ok (optionsOf f ((stringsSplit f.headers ',').foldl
        (fun acc e => mapSet acc (nameOf e) (valueOf e)) []))) ∨
    (f.args ≠ [] ∧ ¬ missingTLS f ∧ f.headers = [] ∧ parseArgs f = .ok (optionsOf f [])) := by
  by_cases ha : f.args = []
  · left
    exact ⟨ha, by simp [parseArgs, ha]⟩
  · right
    have hlen : ¬ f.args.length < 1 := by
      cases hargs : f.args with
      | nil => exact absurd hargs ha
      | cons a t => simp
    by_cases ht : missingTLS f
    · left
      refine ⟨ha, ht, ?_⟩
      obtain ⟨h1, h2⟩ := ht
      have hb : (f.useHTTPS && (f.certFile.length == 0 || f.keyFile.length == 0)) = true := by
        rcases h2 with h2 | h2 <;> simp [h1, h2]
      simp [parseArgs, hlen, hb]
    · right
      have hb : ¬ (f.useHTTPS && (f.certFile.length == 0 || f.keyFile.length == 0)) = true := by
        intro hb
        apply ht
        simp only [Bool.and_eq_true, Bool.or_eq_true, beq_iff_eq, List.length_eq_zero] at hb
        exact hb
      by_cases hh : f.headers = []
      · right; right
        refine ⟨ha, ht, hh, ?_⟩
        simp [parseArgs, hlen, hb, hh, optionsOf]
      · have hpos : f.headers.length > 0 := List.length_pos.mpr hh
        by_cases hc : ∀ e ∈ stringsSplit f.headers ',', ':' ∈ e
        · right; left
          refine ⟨ha, ht, hh, hc, ?_⟩
          simp only [parseArgs, hlen, hb, hpos, if_true, if_false, parseHeaders_ok _ _ hc]
          rfl
        · left
          have hex : ∃ e ∈ stringsSplit f.headers ',', ':' ∉ e := by
            push_neg at hc
            exact hc
          refine ⟨ha, ht, ⟨hh, hex⟩, ?_⟩
          simp only [parseArgs, hlen, hb, hpos, if_true, if_false, parseHeaders_exit _ _ hex,
            Bool.false_eq_true]

theorem main_of_ok (f : Flags) (o : Options) (h : parseArgs f = .ok o) :
    main f = .ok
      (if o.useHTTPS then
        { logged := ["Serving files from: ".toList ++ o.dir, "HTTPS: ".toList ++ o.addr],
          transport := .listenAndServeTLS o.addr o.certFile o.keyFile }
      else
        { logged := ["Serving files from: ".toList ++ o.dir, "HTTP: ".toList ++ o.addr],
          transport := .listenAndServe o.addr }) := by
  simp only [main, h]
  cases o.useHTTPS <;> rfl

theorem main_of_exit (f : Flags) (e : Exit) (h : parseArgs f = .exit e) :
    main f = .exit e := by
  simp only [main, h]

theorem usage_shown (l : List Str) : (usage l).usageShown = true ∧ (usage l).code = 1 :=
  ⟨rfl, rfl⟩

/-- Every rejection of `parseArgs` is a call of `usage`. -/
theorem parseArgs_exit_usage (f : Flags) (e : Exit) (h : parseArgs f = .exit e) :
    e.usageShown = true ∧ e.code = 1 := by
  rcases parseArgs_cases f with ⟨_, h1⟩ | ⟨_, _, h1⟩ | ⟨_, _, _, h1⟩ | ⟨_, _, _, _, h1⟩ |
      ⟨_, _, _, h1⟩ <;> rw [h1] at h
  · cases h; exact usage_shown _
  · cases h; exact usage_shown _
  · cases h; exact usage_shown _
  · cases h
  · cases h

/-- The flags `parseArgs` accepts: an address, no missing TLS file. -/
theorem parseArgs_ok_inv (f : Flags) (o : Options) (h : parseArgs f = .ok o) :
    f.args ≠ [] ∧ ¬ missingTLS f ∧ ¬ badHeaders f ∧ ∃ hs, o = optionsOf f hs := by
  rcases parseArgs_cases f with ⟨_, h1⟩ | ⟨_, _, h1⟩ | ⟨_, _, _, h1⟩ | ⟨ha, ht, _, hc, h1⟩ |
      ⟨ha, ht, hh, h1⟩ <;> rw [h1] at h
  · cases h
  · cases h
  · cases h
  · cases h
    refine ⟨ha, ht, ?_, _, rfl⟩
    rintro ⟨_, e, he, hn⟩
    exact hn (hc e he)
  · cases h
    exact ⟨ha, ht, fun hb => hb.1 hh, _, rfl⟩

/-! ## parseArgs: claims -/

/-- C2: every Options value returned by parseArgs has useHTTPS imply a non-empty
certFile and a non-empty keyFile; when the secure flag is set and the cert path
or the key path is empty, parseArgs ends the process through usage with exit
code 1 and so does main, which therefore never starts ListenAndServeTLS with an
empty cert or key path. -/
theorem parseArgs_https_needs_cert_and_key (f : Flags) :
    (∀ o, parseArgs f = .ok o → o.useHTTPS = true → o.certFile ≠ [] ∧ o.keyFile ≠ []) ∧
    (missingTLS f →
      ∃ e, parseArgs f = .exit e ∧ e.usageShown = true ∧ e.code = 1 ∧ main f = .exit e) ∧
    (∀ l addr c k,
      main f = .ok { logged := l, transport := .listenAndServeTLS addr c k } →
      c ≠ [] ∧ k ≠ []) := by
  have h1 : ∀ o, parseArgs f = .ok o → o.useHTTPS = true → o.certFile ≠ [] ∧ o.keyFile ≠ [] := by
    intro o ho hs
    obtain ⟨_, ht, _, hs1, rfl⟩ := parseArgs_ok_inv f o ho
    simp only [optionsOf] at hs ⊢
    exact ⟨fun hc => ht ⟨hs, Or.inl hc⟩, fun hk => ht ⟨hs, Or.inr hk⟩⟩
  refine ⟨h1, ?_, ?_⟩
  · intro ht
    cases hp : parseArgs f with
    | ok o => exact absurd ht (parseArgs_ok_inv f o hp).2.1
    | exit e =>
      obtain ⟨hu, hc⟩ := parseArgs_exit_usage f e hp
      exact ⟨e, rfl, hu, hc, main_of_exit f e hp⟩
  · intro l addr c k hm
    cases hp : parseArgs f with
    | exit e => rw [main_of_exit f e hp] at hm; cases hm
    | ok o =>
      rw [main_of_ok f o hp] at hm
      cases hs : o.useHTTPS with
      | false => simp [hs] at hm
      | true =>
        simp only [hs, if_true, Result.ok.injEq, Started.mk.injEq,
          Transport.listenAndServeTLS.injEq] at hm
        obtain ⟨_, _, hc, hk⟩ := hm
        rw [← hc, ← hk]
        exact h1 o hp hs

/-- C2 at `-s 127.0.0.1:4443` (rejected, nothing bound) and at
`-s -c cert.pem -k key.pem 127.0.0.1:4443` (accepted, TLS started with both
files). -/
theorem parseArgs_https_needs_cert_and_key_witness :
    missingTLS misconfigFlags ∧
    (∃ e, parseArgs misconfigFlags = .exit e ∧ e.usageShown = true ∧ e.code = 1 ∧
      main misconfigFlags = .exit e) ∧
    main tlsFlags = .ok
      { logged := ["Serving files from: /srv".toList, "HTTPS: 127.0.0.1:4443".toList],
        transport := .listenAndServeTLS "127.0.0.1:4443".toList "cert.pem".toList
          "key.pem".toList } ∧
    ("cert.pem".toList ≠ [] ∧ "key.pem".toList ≠ []) := by
  have hm : missingTLS misconfigFlags := ⟨rfl, Or.inl rfl⟩
  have ht : main tlsFlags = .ok
      { logged := ["Serving files from: /srv".toList, "HTTPS: 127.0.0.1:4443".toList],
        transport := .listenAndServeTLS "127.0.0.1:4443".toList "cert.pem".toList
          "key.pem".toList } := by decide
  exact ⟨hm, (parseArgs_https_needs_cert_and_key misconfigFlags).2.1 hm, ht,
    (parseArgs_https_needs_cert_and_key tlsFlags).2.2 _ _ _ _ ht⟩

/-- C3: parseArgs rejects the configuration (usage, exit code 1) exactly when
there is no positional argument, or useHTTPS is set and certFile or keyFile is
empty, or the headers string is non-empty and one of its comma separated entries
has no colon. In every other case it returns an Options whose addr is the first
positional argument and whose dir, certFile, keyFile, useHTTPS and useCORS are
the flag values as given. A headers string `bad` is rejected; an empty headers
string is accepted with no headers. -/
theorem parseArgs_rejects_iff (f : Flags) :
    ((∃ e, parseArgs f = .exit e) ↔ (f.args = [] ∨ missingTLS f ∨ badHeaders f)) ∧
    (∀ e, parseArgs f = .exit e → e.usageShown = true ∧ e.code = 1) ∧
    (¬ (f.args = [] ∨ missingTLS f ∨ badHeaders f) →
      ∃ o, parseArgs f = .ok o ∧ f.args.head? = some o.addr ∧ o.dir = f.dir ∧
        o.certFile = f.certFile ∧ o.keyFile = f.keyFile ∧ o.useHTTPS = f.useHTTPS ∧
        o.useCORS = f.useCORS) ∧
    (f.headers = "bad".toList → ∃ e, parseArgs f = .exit e) ∧
    (f.headers = [] → f.args ≠ [] → ¬ missingTLS f →
      ∃ o, parseArgs f = .ok o ∧ o.headers = []) := by
  have hiff : (∃ e, parseArgs f = .exit e) ↔ (f.args = [] ∨ missingTLS f ∨ badHeaders f) := by
    constructor
    · rintro ⟨e, he⟩
      rcases parseArgs_cases f with ⟨ha, _⟩ | ⟨_, ht, _⟩ | ⟨_, _, hb, _⟩ | ⟨_, _, _, _, h1⟩ |
          ⟨_, _, _, h1⟩
      · exact Or.inl ha
      · exact Or.inr (Or.inl ht)
      · exact Or.inr (Or.inr hb)
      · rw [h1] at he; cases he
      · rw [h1] at he; cases he
    · intro hr
      cases hp : parseArgs f with
      | exit e => exact ⟨e, rfl⟩
      | ok o =>
        obtain ⟨ha, ht, hb, _⟩ := parseArgs_ok_inv f o hp
        rcases hr with h | h | h
        · exact absurd h ha
        · exact absurd h ht
        · exact absurd h hb
  have hok : ¬ (f.args = [] ∨ missingTLS f ∨ badHeaders f) →
      ∃ o, parseArgs f = .ok o ∧ f.args.head? = some o.addr ∧ o.dir = f.dir ∧
        o.certFile = f.certFile ∧ o.keyFile = f.keyFile ∧ o.useHTTPS = f.useHTTPS ∧
        o.useCORS = f.useCORS := by
    intro hn
    cases hp : parseArgs f with
    | exit e => exact absurd (hiff.mp ⟨e, hp⟩) hn
    | ok o =>
      obtain ⟨ha, _, _, hs, rfl⟩ := parseArgs_ok_inv f o hp
      refine ⟨_, rfl, ?_, rfl, rfl, rfl, rfl, rfl⟩
      cases hargs : f.args with
      | nil => exact absurd hargs ha
      | cons a t => simp [optionsOf, hargs]
  refine ⟨hiff, parseArgs_exit_usage f, hok, ?_, ?_⟩
  · intro hb
    apply hiff.mpr
    by_cases ha : f.args = []
    · exact Or.inl ha
    · refine Or.inr (Or.inr ⟨by rw [hb]; decide, "bad".toList, by rw [hb]; decide, by decide⟩)
  · intro hh ha ht
    rcases parseArgs_cases f with ⟨h, _⟩ | ⟨_, h, _⟩ | ⟨_, _, h, _⟩ | ⟨_, _, h, _⟩ |
        ⟨_, _, _, h1⟩
    · exact absurd h ha
    · exact absurd h ht
    · exact absurd hh h.1
    · exact absurd hh h
    · exact ⟨_, h1, rfl⟩

/-- C3 at `--headers "bad" :8080` (rejected), at `-d /srv` with no address
(rejected) and at `--headers "a:1,b:2" :8080` (accepted, addr `:8080`). -/
theorem parseArgs_rejects_iff_witness :
    badHeaders badFlags ∧ (∃ e, parseArgs badFlags = .exit e) ∧
    (∃ e, parseArgs noAddrFlags = .exit e) ∧
    ¬ (abFlags.args = [] ∨ missingTLS abFlags ∨ badHeaders abFlags) ∧
    (∃ o, parseArgs abFlags = .ok o ∧ abFlags.args.head? = some o.addr ∧ o.dir = abFlags.dir ∧
      o.certFile = abFlags.certFile ∧ o.keyFile = abFlags.keyFile ∧
      o.useHTTPS = abFlags.useHTTPS ∧ o.useCORS = abFlags.useCORS) := by
  have hb : badHeaders badFlags := ⟨by decide, "bad".toList, by decide, by decide⟩
  have hn : ¬ (abFlags.args = [] ∨ missingTLS abFlags ∨ badHeaders abFlags) := by
    rintro (h | h | h)
    · exact absurd h (by decide)
    · exact absurd h.1 (by decide)
    · obtain ⟨_, e, he, hc⟩ := h
      have hs : stringsSplit abFlags.headers ',' = ["a:1".toList, "b:2".toList] := by decide
      rw [hs] at he
      simp only [List.mem_cons, List.mem_nil_iff, or_false] at he
      rcases he with rfl | rfl
      · exact hc (by decide)
      · exact hc (by decide)
  exact ⟨hb, (parseArgs_rejects_iff badFlags).1.mpr (Or.inr (Or.inr hb)),
    (parseArgs_rejects_iff noAddrFlags).1.mpr (Or.inl rfl), hn,
    (parseArgs_rejects_iff abFlags).2.2.1 hn⟩

/-- C4, as stated, fails: `--headers "X-Foo: bar,X-Baz: qux"` is accepted and the
stored values are ` bar` and ` qux`, each beginning with a space, not `bar` and
`qux`; so it is not the case that no stored name or value begins or ends with
white space. -/
theorem parseArgs_headers_not_trimmed :
    parseArgs headerFlags = .ok (optionsOf headerFlags
      [("X-Foo".toList, " bar".toList), ("X-Baz".toList, " qux".toList)]) ∧
    parseArgs headerFlags ≠ .ok (optionsOf headerFlags
      [("X-Foo".toList, "bar".toList), ("X-Baz".toList, "qux".toList)]) ∧
    ¬ (∀ f o, parseArgs f = .ok o →
        ∀ kv ∈ o.headers, isTrimmed kv.1 = true ∧ isTrimmed kv.2 = true) := by
  have h1 : parseArgs headerFlags = .ok (optionsOf headerFlags
      [("X-Foo".toList, " bar".toList), ("X-Baz".toList, " qux".toList)]) := by decide
  refine ⟨h1, by decide, ?_⟩
  intro h
  have := (h headerFlags _ h1 ("X-Foo".toList, " bar".toList) (by decide)).2
  exact absurd this (by decide)

/-- C4, amended: every entry (n, v) stored in Options.headers is a comma
separated entry of the headers string taken as it is, without trimming: the
entry is n, a colon, v, and n holds no colon, so n is the text before the first
colon and v all the text after it, white space included. -/
theorem parseArgs_headers_stored_verbatim (f : Flags) (o : Options)
    (h : parseArgs f = .ok o) (n v : Str) (hm : (n, v) ∈ o.headers) :
    (n ++ ':' :: v) ∈ stringsSplit f.headers ',' ∧ ':' ∉ n := by
  rcases parseArgs_cases f with ⟨_, h1⟩ | ⟨_, _, h1⟩ | ⟨_, _, _, h1⟩ | ⟨_, _, _, hc, h1⟩ |
      ⟨_, _, _, h1⟩ <;> rw [h1] at h
  · cases h
  · cases h
  · cases h
  · cases h
    simp only [optionsOf] at hm
    rcases mem_foldl_mapSet _ _ _ hm with h2 | ⟨e, he, hx⟩
    · simp at h2
    · simp only [Prod.mk.injEq] at hx
      obtain ⟨rfl, rfl⟩ := hx
      obtain ⟨e1, e2⟩ := entry_eq_name_colon_value e (hc e he)
      rw [← e1]
      exact ⟨he, e2⟩
  · cases h
    simp [optionsOf] at hm

/-- C4 amended, at `--headers "X-Foo: bar,X-Baz: qux"` and its entry of X-Foo. -/
theorem parseArgs_headers_stored_verbatim_witness :
    parseArgs headerFlags = .ok (optionsOf headerFlags
      [("X-Foo".toList, " bar".toList), ("X-Baz".toList, " qux".toList)]) ∧
    ("X-Foo".toList ++ ':' :: " bar".toList) ∈ stringsSplit headerFlags.headers ',' ∧
    ':' ∉ "X-Foo".toList :=
  ⟨by decide,
    parseArgs_headers_stored_verbatim headerFlags
      (optionsOf headerFlags [("X-Foo".toList, " bar".toList), ("X-Baz".toList, " qux".toList)])
      (by decide) "X-Foo".toList " bar".toList (by decide)⟩

/-- C5: for a non-empty headers string whose comma separated entries each hold a
colon and have pairwise distinct names, parseArgs (given an address and no
missing TLS file) returns Options whose headers have exactly as many entries as
the string, each entry mapping the text before its first colon to all the text
after it, as it is. `a:1,b:2` gives exactly a to 1 and b to 2; `X-Foo: bar`
gives a value beginning with a space. -/
theorem parseArgs_headers_entries (f : Flags) (ha : f.args ≠ []) (ht : ¬ missingTLS f)
    (hne : f.headers ≠ []) (hc : ∀ e ∈ stringsSplit f.headers ',', ':' ∈ e)
    (hd : ((stringsSplit f.headers ',').map nameOf).Nodup) :
    (∃ o, parseArgs f = .ok o ∧
      o.headers.length = (stringsSplit f.headers ',').length ∧
      (∀ e ∈ stringsSplit f.headers ',',
        mapGet o.headers (nameOf e) = some (valueOf e) ∧
        e = nameOf e ++ ':' :: valueOf e ∧ ':' ∉ nameOf e)) ∧
    (∃ o, parseArgs abFlags = .ok o ∧ o.headers.length = 2 ∧
      mapGet o.headers "a".toList = some "1".toList ∧
      mapGet o.headers "b".toList = some "2".toList) ∧
    (∀ g : Flags, g.headers = "X-Foo: bar".toList → ∀ o, parseArgs g = .ok o →
      mapGet o.headers "X-Foo".toList = some (' ' :: "bar".toList)) := by
  have hfold : ∀ g : Flags, ((stringsSplit g.headers ',').map nameOf).Nodup →
      (stringsSplit g.headers ',').foldl (fun acc e => mapSet acc (nameOf e) (valueOf e)) []
        = (stringsSplit g.headers ',').map (fun e => (nameOf e, valueOf e)) := by
    intro g hg
    have := foldl_mapSet_nodup (stringsSplit g.headers ',') [] (by simpa using hg)
    simpa using this
  refine ⟨?_, ⟨_, (by decide : parseArgs abFlags = .ok (optionsOf abFlags
      [("a".toList, "1".toList), ("b".toList, "2".toList)])), by decide, by decide, by decide⟩, ?_⟩
  · rcases parseArgs_cases f with ⟨h, _⟩ | ⟨_, h, _⟩ | ⟨_, _, h, _⟩ | ⟨_, _, _, _, h1⟩ |
        ⟨_, _, h, _⟩
    · exact absurd h ha
    · exact absurd h ht
    · obtain ⟨_, e, he, hn⟩ := h
      exact absurd (hc e he) hn
    · refine ⟨_, h1, ?_, ?_⟩
      · simp [optionsOf, hfold f hd]
      · intro e he
        refine ⟨?_, entry_eq_name_colon_value e (hc e he)⟩
        simp only [optionsOf, hfold f hd]
        apply mapGet_of_mem
        · simpa [List.map_map, Function.comp_def] using hd
        · exact List.mem_map.mpr ⟨e, he, rfl⟩
    · exact absurd h hne
  · intro g hg o ho
    rcases parseArgs_cases g with ⟨_, h1⟩ | ⟨_, _, h1⟩ | ⟨_, _, _, h1⟩ | ⟨_, _, _, _, h1⟩ |
        ⟨_, _, hh, _⟩
    · rw [h1] at ho; cases ho
    · rw [h1] at ho; cases ho
    · rw [h1] at ho; cases ho
    · rw [h1] at ho
      cases ho
      simp only [optionsOf, hg]
      decide
    · rw [hg] at hh
      exact absurd hh (by decide)

/-- C5 at `--headers "a:1,b:2" :8080`. -/
theorem parseArgs_headers_entries_witness :
    (abFlags.args ≠ [] ∧ ¬ missingTLS abFlags ∧ abFlags.headers ≠ [] ∧
      (∀ e ∈ stringsSplit abFlags.headers ',', ':' ∈ e) ∧
      ((stringsSplit abFlags.headers ',').map nameOf).Nodup) ∧
    ∃ o, parseArgs abFlags = .ok o ∧
      o.headers.length = (stringsSplit abFlags.headers ',').length ∧
      (∀ e ∈ stringsSplit abFlags.headers ',',
        mapGet o.headers (nameOf e) = some (valueOf e) ∧
        e = nameOf e ++ ':' :: valueOf e ∧ ':' ∉ nameOf e) := by
  have h1 : abFlags.args ≠ [] := by decide
  have h2 : ¬ missingTLS abFlags := fun h => absurd h.1 (by decide)
  have h3 : abFlags.headers ≠ [] := by decide
  have h4 : ∀ e ∈ stringsSplit abFlags.headers ',', ':' ∈ e := by decide
  have h5 : ((stringsSplit abFlags.headers ',').map nameOf).Nodup := by decide
  exact ⟨⟨h1, h2, h3, h4, h5⟩, (parseArgs_headers_entries abFlags h1 h2 h3 h4 h5).1⟩

/-! ## The handler chain of main: claims -/

/-- C9, as stated, fails: with `--cors --headers "X-Foo: bar,X-Baz: qux"` the
effects of one request are the three header additions, then the start of the
logger, then the responder, then the log entry. The logger does not start
before the decorator sets its headers, and the effects differ from those of the
chain with the logger first and the decorator innermost. -/
theorem mainHandler_decorator_not_innermost :
    (mainHandler exampleOptions exampleRouter exampleOptions.headers emptyWriter
        exampleRequest).trace
      = [Event.headerAdd corsHeader "*".toList,
         Event.headerAdd "X-Foo".toList " bar".toList,
         Event.headerAdd "X-Baz".toList " qux".toList,
         Event.logStart,
         Event.respond "/hello.txt".toList,
         Event.logEntry 200 "GET".toList "/hello.txt".toList] ∧
    ¬ ((mainHandler exampleOptions exampleRouter exampleOptions.headers emptyWriter
          exampleRequest).trace.indexOf Event.logStart
        < (mainHandler exampleOptions exampleRouter exampleOptions.headers emptyWriter
          exampleRequest).trace.indexOf (Event.headerAdd corsHeader "*".toList)) ∧
    (mainHandler exampleOptions exampleRouter exampleOptions.headers emptyWriter
        exampleRequest).trace
      ≠ (loggerFirstHandler exampleOptions exampleRouter exampleOptions.headers emptyWriter
        exampleRequest).trace := by
  refine ⟨by decide, by decide, by decide⟩

/-- C9, amended: in the chain that main composes the decorator is the outermost
middleware, the logger comes next and the router last (decorator, logger,
responder). For every request the decorator applies its header additions to the
response first, the logger then starts, the router runs on the decorated
response, and the logger writes its entry last. -/
theorem mainHandler_decorator_first (opts : Options) (r : Handler) (order : StrMap)
    (w : ResponseWriter) (req : Request) :
    ∃ w1 : ResponseWriter,
      (∀ next : Handler, getHandler opts order w req next = next w1 req) ∧
      w1.trace = w.trace ++ addEvents (additions opts order) ∧
      mainHandler opts r order w req
        = { r { w1 with trace := w1.trace ++ [Event.logStart] } req with
            trace := (r { w1 with trace := w1.trace ++ [Event.logStart] } req).trace ++
              [Event.logEntry (r { w1 with trace := w1.trace ++ [Event.logStart] } req).status
                req.method req.path] } ∧
      (mainHandler opts recordingHandler order w req).trace
        = w.trace ++ addEvents (additions opts order) ++
          [Event.logStart, Event.respond req.path,
           Event.logEntry w.status req.method req.path] := by
  refine ⟨_, fun next => getHandler_eq opts order w req next, foldl_headerAdd_trace _ _, ?_, ?_⟩
  · simp only [mainHandler, build, getHandler_eq, newLogger, wrap, voidMiddleware]
  · simp only [mainHandler, build, getHandler_eq, newLogger, wrap, voidMiddleware,
      recordingHandler, foldl_headerAdd_trace, foldl_headerAdd_status]
    simp

end Serve
